import Mathlib

/-!
Verification development for the polyglot-scholar translation pipeline
(`src/services/translationService.ts` and the segment store in `App.tsx`).

Strings are modelled as `List Char` (one entry per UTF-16 code unit of the
JavaScript string; every character occurring in these claims fits in one
code unit, so `String.prototype.length`, `slice`, `indexOf` agree with list
length, take/drop and sublist search).  JavaScript float thresholds
`maxChunkSize * 0.95` and `Math.floor(size * 0.8)` are modelled by the exact
rationals `19*m/20` and `4*size/5`; for the integer operands reachable here
the double-precision computation agrees with the exact value.
-/

namespace Polyglot

/-- JS whitespace (`\s`, `trim`): the ASCII whitespace characters (the Unicode
space classes never occur in the claims' inputs). -/
def isJsSpace (c : Char) : Bool :=
  c == ' ' || c == '\t' || c == '\n' || c == '\r' || c == '\x0b' || c == '\x0c'

/-- `String.prototype.trim`. -/
def jsTrim (s : List Char) : List Char :=
  ((s.dropWhile isJsSpace).reverse.dropWhile isJsSpace).reverse

/-- Does `pat` occur in `s` starting at index `i`?  (Substring test used by
`indexOf`/`includes`.) -/
def matchAt (s pat : List Char) (i : Nat) : Bool :=
  decide (i + pat.length ≤ s.length) && ((s.drop i).take pat.length == pat)

/-- `s.indexOf(pat, fromIdx)`: index of the first occurrence of `pat` in `s` at
or after `min fromIdx s.length` (JS clamps the start position), `none` for -1. -/
def firstIndexFrom (s pat : List Char) (fromIdx : Nat) : Option Nat :=
  (List.range (s.length + 1)).find? fun i =>
    decide (min fromIdx s.length ≤ i) && matchAt s pat i

/-- `s.includes(pat)`. -/
def jsIncludes (s pat : List Char) : Bool :=
  (firstIndexFrom s pat 0).isSome

/-- `chunk.replace(/^\[这是第[\s\S]*?\]\n\n/, '')` — the lazy body stops at the
first occurrence of `]\n\n` at or after the four-character prefix `[这是第`. -/
def stripChunkMarker (s : List Char) : List Char :=
  if List.isPrefixOf ['[', '这', '是', '第'] s then
    match firstIndexFrom s [']', '\n', '\n'] 4 with
    | some i => s.drop (i + 3)
    | none => s
  else s

/-- The `start` of one `computeOffsets` step (`translationService.ts` 74-77):
probe = first ≤50 cleaned characters, trimmed; `start` = `indexOf` hit if
found, else the running position `pos`. -/
def offsetStart (original cleaned : List Char) (pos : Nat) : Nat :=
  (firstIndexFrom original (jsTrim (cleaned.take (min 50 cleaned.length))) pos).getD pos

/-- The `end` of one `computeOffsets` step (line 78):
`end = Math.min(start + cleaned.length, original.length)`. -/
def offsetEnd (original : List Char) (start len : Nat) : Nat :=
  min (start + len) original.length

/-- The loop of `computeOffsets` (`translationService.ts` lines 70-83); the
running position `pos` starts at 0 and advances to each computed `end`. -/
def computeOffsetsGo (original : List Char) : List (List Char) → Nat → List (Nat × Nat)
  | [], _ => []
  | chunk :: rest, pos =>
    let start := offsetStart original (stripChunkMarker chunk) pos
    let e := offsetEnd original start (stripChunkMarker chunk).length
    (start, e) :: computeOffsetsGo original rest e

/-- `computeOffsets(original, chunks)` from `translationService.ts` lines 70-83. -/
def computeOffsets (original : List Char) (chunks : List (List Char)) : List (Nat × Nat) :=
  computeOffsetsGo original chunks 0

lemma computeOffsetsGo_cons (original chunk : List Char) (rest : List (List Char)) (pos : Nat) :
    computeOffsetsGo original (chunk :: rest) pos =
      (offsetStart original (stripChunkMarker chunk) pos,
        offsetEnd original (offsetStart original (stripChunkMarker chunk) pos)
          (stripChunkMarker chunk).length) ::
      computeOffsetsGo original rest
        (offsetEnd original (offsetStart original (stripChunkMarker chunk) pos)
          (stripChunkMarker chunk).length) := rfl

lemma firstIndexFrom_bounds {s pat : List Char} {f i : Nat}
    (h : firstIndexFrom s pat f = some i) : min f s.length ≤ i ∧ i ≤ s.length := by
  have hmem := List.mem_of_find?_eq_some h
  have hp := List.find?_some h
  rw [Bool.and_eq_true] at hp
  refine ⟨of_decide_eq_true hp.1, ?_⟩
  have := List.mem_range.mp hmem
  omega

lemma offsetStart_bounds (original cleaned : List Char) {pos : Nat}
    (hpos : pos ≤ original.length) :
    pos ≤ offsetStart original cleaned pos ∧ offsetStart original cleaned pos ≤ original.length := by
  unfold offsetStart
  cases hfi : firstIndexFrom original (jsTrim (cleaned.take (min 50 cleaned.length))) pos with
  | none => simp only [Option.getD_none]; exact ⟨le_refl pos, hpos⟩
  | some i =>
    have := firstIndexFrom_bounds hfi
    simp only [Option.getD_some]
    omega

lemma computeOffsetsGo_props (original : List Char) (chunks : List (List Char)) :
    ∀ pos, pos ≤ original.length →
      (∀ r ∈ computeOffsetsGo original chunks pos,
        pos ≤ r.1 ∧ r.1 ≤ r.2 ∧ r.2 ≤ original.length) ∧
      List.Chain' (fun a b : Nat × Nat => a.1 ≤ b.1) (computeOffsetsGo original chunks pos) := by
  induction chunks with
  | nil => intro pos _; simp [computeOffsetsGo]
  | cons chunk rest ih =>
    intro pos hpos
    rw [computeOffsetsGo_cons]
    obtain ⟨hs1, hs2⟩ := offsetStart_bounds original (stripChunkMarker chunk) hpos
    set start := offsetStart original (stripChunkMarker chunk) pos with hst
    set e := offsetEnd original start (stripChunkMarker chunk).length with he
    have hse : start ≤ e := by unfold offsetEnd at he; omega
    have hel : e ≤ original.length := by unfold offsetEnd at he; omega
    obtain ⟨ihmem, ihchain⟩ := ih e hel
    constructor
    · intro r hr
      rcases List.mem_cons.mp hr with h | h
      · subst h; exact ⟨hs1, hse, hel⟩
      · have := ihmem r h
        exact ⟨le_trans (le_trans hs1 hse) this.1, this.2.1, this.2.2⟩
    · rw [List.chain'_cons']
      refine ⟨?_, ihchain⟩
      intro b hb
      have hbmem : b ∈ computeOffsetsGo original rest e := List.mem_of_mem_head? hb
      exact le_trans hse (ihmem b hbmem).1

/-- C2: every range returned by `computeOffsets` satisfies
`start ≤ end ≤ length original` (starts are naturals, so `0 ≤ start` is
immediate), and `start` is non-decreasing along the returned list. -/
theorem computeOffsets_inBounds_mono (original : List Char) (chunks : List (List Char)) :
    (∀ r ∈ computeOffsets original chunks, r.1 ≤ r.2 ∧ r.2 ≤ original.length) ∧
    List.Chain' (fun a b : Nat × Nat => a.1 ≤ b.1) (computeOffsets original chunks) := by
  obtain ⟨hmem, hchain⟩ :=
    computeOffsetsGo_props original chunks 0 (Nat.zero_le _)
  exact ⟨fun r hr => (hmem r hr).2, hchain⟩

/-- Witness for C2 at a concrete input: `computeOffsets "ab" ["ab"] = [(0, 2)]`. -/
theorem computeOffsets_inBounds_mono_witness :
    ((0, 2) : Nat × Nat).1 ≤ ((0, 2) : Nat × Nat).2 ∧
      ((0, 2) : Nat × Nat).2 ≤ (['a', 'b'] : List Char).length :=
  (computeOffsets_inBounds_mono ['a', 'b'] [['a', 'b']]).1 (0, 2) (by decide)

lemma getLast?_cons_ne_nil {α : Type} (a : α) {l : List α} (h : l ≠ []) :
    (a :: l).getLast? = l.getLast? := by
  cases l with
  | nil => exact absurd rfl h
  | cons b t => simp [List.getLast?_cons_cons]

lemma computeOffsetsGo_ne_nil (original chunk : List Char) (rest : List (List Char)) (pos : Nat) :
    computeOffsetsGo original (chunk :: rest) pos ≠ [] := by
  rw [computeOffsetsGo_cons]; simp

lemma computeOffsetsGo_last (original : List Char) (chunks : List (List Char)) :
    ∀ pos c, chunks.getLast? = some c →
      ∃ r, (computeOffsetsGo original chunks pos).getLast? = some r ∧
        r.2 = min (r.1 + (stripChunkMarker c).length) original.length := by
  induction chunks with
  | nil => intro pos c h; simp at h
  | cons chunk rest ih =>
    intro pos c h
    cases rest with
    | nil =>
      simp only [List.getLast?_singleton, Option.some_inj] at h
      subst h
      refine ⟨(offsetStart original (stripChunkMarker chunk) pos,
        offsetEnd original (offsetStart original (stripChunkMarker chunk) pos)
          (stripChunkMarker chunk).length), ?_, rfl⟩
      rw [computeOffsetsGo_cons]
      simp [computeOffsetsGo]
    | cons d ds =>
      rw [List.getLast?_cons_cons] at h
      obtain ⟨r, hr, hr2⟩ := ih
        (offsetEnd original (offsetStart original (stripChunkMarker chunk) pos)
          (stripChunkMarker chunk).length) c h
      refine ⟨r, ?_, hr2⟩
      rw [computeOffsetsGo_cons,
        getLast?_cons_ne_nil _ (computeOffsetsGo_ne_nil original d ds _)]
      exact hr

/-- C7 (amended): for a non-empty chunk list the final range returned by
`computeOffsets` ends at `min (start + cleanedLength) (length original)` — the
code has no last-segment special case, so `end` equals `length original` only
when the cleaned chunk reaches the end of the original text. -/
theorem computeOffsets_last_end (original : List Char) (chunks : List (List Char))
    (c : List Char) (h : chunks.getLast? = some c) :
    ∃ r, (computeOffsets original chunks).getLast? = some r ∧
      r.2 = min (r.1 + (stripChunkMarker c).length) original.length :=
  computeOffsetsGo_last original chunks 0 c h

/-- Witness for the amended C7 at a concrete input. -/
theorem computeOffsets_last_end_witness :
    ∃ r, (computeOffsets
        ['h', 'e', 'l', 'l', 'o', ' ', 'w', 'o', 'r', 'l', 'd'] [['h', 'e', 'l', 'l', 'o']]).getLast? =
        some r ∧
      r.2 = min (r.1 + (stripChunkMarker ['h', 'e', 'l', 'l', 'o']).length)
        (['h', 'e', 'l', 'l', 'o', ' ', 'w', 'o', 'r', 'l', 'd'] : List Char).length :=
  computeOffsets_last_end _ _ ['h', 'e', 'l', 'l', 'o'] (by decide)

/-- C7 counterexample: for original `"hello world"` (length 11) and single
chunk `"hello"`, `computeOffsets` returns `[(0, 5)]` — the last range's `end`
is 5, not `length original = 11`, refuting the claim that the last chunk's
range always ends at the length of the original text. -/
theorem computeOffsets_last_end_cex :
    (computeOffsets ['h', 'e', 'l', 'l', 'o', ' ', 'w', 'o', 'r', 'l', 'd']
        [['h', 'e', 'l', 'l', 'o']]).getLast? = some (0, 5) ∧
      (['h', 'e', 'l', 'l', 'o', ' ', 'w', 'o', 'r', 'l', 'd'] : List Char).length = 11 ∧
      (5 : Nat) ≠ 11 := by
  refine ⟨?_, by decide, by decide⟩
  decide

/-! ## Segmenter (`splitTextIntoChunks`, `translationService.ts` lines 22-68)

The segmenter is embedded with fuel-based recursion where the source uses
`while` loops; every top-level call passes enough fuel (each loop iteration
consumes at least one character once `maxSize ≥ 1`), so the fuel-exhaustion
branches are unreachable there.  With `maxSize = 0` the source's inner
character-splitting `while` loop does not terminate, so the theorems below
assume `1 ≤ maxSize` (all call sites pass 800 or 4000, and a falsy user
override is replaced by the default). -/

/-- Is the head of the list a newline?  (lookahead used by the paragraph
split). -/
def headIsNl : List Char → Bool
  | d :: _ => d == '\n'
  | [] => false

/-- `text.split(/\n{2,}/)`: a run of two or more newlines separates
paragraphs; the greedy quantifier consumes the whole run. -/
def splitParasGo : Nat → List Char → List Char → List (List Char)
  | 0, s, acc => [acc.reverse ++ s]
  | _ + 1, [], acc => [acc.reverse]
  | fuel + 1, c :: rest, acc =>
    if c == '\n' && headIsNl rest then
      acc.reverse :: splitParasGo fuel (rest.dropWhile (· == '\n')) []
    else splitParasGo fuel rest (c :: acc)

def splitParas (s : List Char) : List (List Char) := splitParasGo (s.length + 1) s []

/-- Terminal sentence punctuation of the split regex `(?<=[。！？.!?])`. -/
def isTermPunct (c : Char) : Bool :=
  c == '。' || c == '！' || c == '？' || c == '.' || c == '!' || c == '?'

/-- Is the head of the list JS whitespace? (start of the `\s+` separator). -/
def headIsSpace : List Char → Bool
  | d :: _ => isJsSpace d
  | [] => false

/-- `paragraph.split(/(?<=[。！？.!?])\s+/)`: cut after terminal punctuation,
consuming the following whitespace run as the separator. -/
def splitSentencesGo : Nat → List Char → List Char → List (List Char)
  | 0, s, acc => [acc.reverse ++ s]
  | _ + 1, [], acc => [acc.reverse]
  | fuel + 1, c :: rest, acc =>
    if isTermPunct c && headIsSpace rest then
      (c :: acc).reverse :: splitSentencesGo fuel (rest.dropWhile isJsSpace) []
    else splitSentencesGo fuel rest (c :: acc)

def splitSentences (s : List Char) : List (List Char) :=
  splitSentencesGo (s.length + 1) s []

/-- The punctuation set `'，,。.！!？?;；:：'` preferred as a character-level
break position. -/
def hardPunct : List Char := ['，', ',', '。', '.', '！', '!', '？', '?', ';', '；', ':', '：']

/-- The inner scan of the character-level splitter: `splitPoint = size`, then
scan `i` from `size-1` down to `Math.floor(size*0.8)` for the last punctuation
mark and break after it (`translationService.ts` lines 43-48). -/
def findSplitPoint (rest : List Char) (size : Nat) : Nat :=
  if size < rest.length then
    match (List.range size).reverse.find? (fun i =>
        decide (4 * size / 5 ≤ i) && ((rest.get? i).elim false (hardPunct.contains ·))) with
    | some i => i + 1
    | none => size
  else size

/-- The mutable pair `(chunks, current)` of the segmenter loops. -/
structure SegAcc where
  chunks : List (List Char)
  current : List Char
deriving DecidableEq

def nl2 : List Char := ['\n', '\n']

/-- `if (current.length === 0) current = piece; else current += '\n\n' + piece;
if (current.length >= maxChunkSize * 0.95) { chunks.push(current); current = '' }`
(the float threshold is the exact `19/20 · maxSize`). -/
def pushPiece (maxSize : Nat) (a : SegAcc) (piece : List Char) : SegAcc :=
  let cur := if a.current.length = 0 then piece else a.current ++ nl2 ++ piece
  if 19 * maxSize ≤ 20 * cur.length then ⟨a.chunks ++ [cur], []⟩ else ⟨a.chunks, cur⟩

/-- The `while (rest.length > 0)` character-splitting loop
(`translationService.ts` lines 41-53). -/
def hardSplitGo (maxSize : Nat) : Nat → List Char → SegAcc → SegAcc
  | 0, _, a => a
  | fuel + 1, rest, a =>
    if rest.isEmpty then a
    else
      let size := min rest.length maxSize
      let sp := findSplitPoint rest size
      hardSplitGo maxSize fuel (rest.drop sp) (pushPiece maxSize a (rest.take sp))

/-- Body of `for (const s of sentences)` (lines 37-59). -/
def processSentence (maxSize : Nat) (a : SegAcc) (s : List Char) : SegAcc :=
  if maxSize < s.length then hardSplitGo maxSize s.length s a
  else pushPiece maxSize a s

/-- Body of `for (const para of paragraphs)` (lines 28-65). -/
def processParagraph (maxSize : Nat) (a : SegAcc) (p : List Char) : SegAcc :=
  if (jsTrim p).isEmpty then a
  else if maxSize < p.length then (splitSentences p).foldl (processSentence maxSize) a
  else pushPiece maxSize a p

/-- `splitTextIntoChunks(text, maxChunkSize)` (`translationService.ts`
lines 22-68, current snapshot — this version adds no position markers). -/
def splitTextIntoChunks (text : List Char) (maxSize : Nat) : List (List Char) :=
  if text.length ≤ maxSize then [text]
  else
    let a := (splitParas text).foldl (processParagraph maxSize) ⟨[], []⟩
    if a.current.length ≠ 0 then a.chunks ++ [a.current] else a.chunks

/-- The non-whitespace characters of a string, in order: the claim's notion of
"whitespace-normalized" equality is equality of these sequences. -/
def nonWs (s : List Char) : List Char := s.filter (fun c => !isJsSpace c)

def concatNonWs (l : List (List Char)) : List Char := (l.map nonWs).flatten

/-- Rejoin segments with the segmenter's own double-newline separator. -/
def joinNN : List (List Char) → List Char
  | [] => []
  | c :: rest => if rest.isEmpty then c else c ++ nl2 ++ joinNN rest

lemma nonWs_append (l1 l2 : List Char) : nonWs (l1 ++ l2) = nonWs l1 ++ nonWs l2 :=
  List.filter_append ..

lemma nonWs_dropWhile (p : Char → Bool) (hp : ∀ c, p c = true → isJsSpace c = true) :
    ∀ l : List Char, nonWs (l.dropWhile p) = nonWs l := by
  intro l
  induction l with
  | nil => rfl
  | cons c t ih =>
    by_cases h : p c = true
    · rw [List.dropWhile_cons_of_pos h, ih]
      simp [nonWs, List.filter_cons, hp c h]
    · rw [List.dropWhile_cons_of_neg h]

lemma concatNonWs_cons (x : List Char) (l : List (List Char)) :
    concatNonWs (x :: l) = nonWs x ++ concatNonWs l := rfl

lemma concatNonWs_append (l1 l2 : List (List Char)) :
    concatNonWs (l1 ++ l2) = concatNonWs l1 ++ concatNonWs l2 := by
  simp [concatNonWs]

lemma nonWs_joinNN : ∀ l : List (List Char), nonWs (joinNN l) = concatNonWs l := by
  intro l
  induction l with
  | nil => rfl
  | cons c rest ih =>
    rw [joinNN]
    cases rest with
    | nil => simp [concatNonWs]
    | cons d ds =>
      simp only [List.isEmpty_cons, if_neg Bool.false_ne_true, nonWs_append, ih,
        concatNonWs_cons]
      simp [nl2, nonWs, isJsSpace]

lemma nonWs_cons_ws {c : Char} (h : isJsSpace c = true) (l : List Char) :
    nonWs (c :: l) = nonWs l := by
  simp [nonWs, List.filter_cons, h]

lemma splitParasGo_nonWs : ∀ (fuel : Nat) (s acc : List Char),
    concatNonWs (splitParasGo fuel s acc) = nonWs acc.reverse ++ nonWs s := by
  intro fuel
  induction fuel with
  | zero =>
    intro s acc
    simp [splitParasGo, concatNonWs, nonWs_append]
  | succ n ih =>
    intro s acc
    cases s with
    | nil => simp [splitParasGo, concatNonWs, nonWs]
    | cons c rest =>
      rw [splitParasGo]
      by_cases h : (c == '\n' && headIsNl rest) = true
      · rw [if_pos h, concatNonWs_cons, ih]
        have hc : c = '\n' := eq_of_beq ((Bool.and_eq_true ..).mp h).1
        subst hc
        rw [nonWs_dropWhile (· == '\n') (fun d hd => by rw [eq_of_beq hd]; rfl)]
        rw [nonWs_cons_ws (by rfl)]
        simp [nonWs]
      · rw [if_neg h, ih]
        cases hb : isJsSpace c with
        | false =>
          simp [nonWs, List.filter_cons, List.filter_append, hb, List.append_assoc]
        | true =>
          simp [nonWs, List.filter_cons, List.filter_append, hb]

lemma splitSentencesGo_nonWs : ∀ (fuel : Nat) (s acc : List Char),
    concatNonWs (splitSentencesGo fuel s acc) = nonWs acc.reverse ++ nonWs s := by
  intro fuel
  induction fuel with
  | zero =>
    intro s acc
    simp [splitSentencesGo, concatNonWs, nonWs_append]
  | succ n ih =>
    intro s acc
    cases s with
    | nil => simp [splitSentencesGo, concatNonWs, nonWs]
    | cons c rest =>
      rw [splitSentencesGo]
      by_cases h : (isTermPunct c && headIsSpace rest) = true
      · rw [if_pos h, concatNonWs_cons, ih]
        rw [nonWs_dropWhile isJsSpace (fun d hd => hd)]
        cases hb : isJsSpace c with
        | false =>
          simp [nonWs, List.filter_cons, List.filter_append, hb, List.append_assoc]
        | true =>
          simp [nonWs, List.filter_cons, List.filter_append, hb]
      · rw [if_neg h, ih]
        cases hb : isJsSpace c with
        | false =>
          simp [nonWs, List.filter_cons, List.filter_append, hb, List.append_assoc]
        | true =>
          simp [nonWs, List.filter_cons, List.filter_append, hb]

lemma splitParas_nonWs (s : List Char) : concatNonWs (splitParas s) = nonWs s := by
  rw [splitParas, splitParasGo_nonWs]; simp [nonWs]

lemma splitSentences_nonWs (s : List Char) : concatNonWs (splitSentences s) = nonWs s := by
  rw [splitSentences, splitSentencesGo_nonWs]; simp [nonWs]

/-- The cumulative non-whitespace content of the segmenter accumulator. -/
def accNonWs (a : SegAcc) : List Char := concatNonWs a.chunks ++ nonWs a.current

lemma pushPiece_nonWs (m : Nat) (a : SegAcc) (piece : List Char) :
    accNonWs (pushPiece m a piece) = accNonWs a ++ nonWs piece := by
  unfold pushPiece accNonWs
  by_cases h0 : a.current.length = 0
  · have hnil : a.current = [] := List.length_eq_zero.mp h0
    rw [if_pos h0]
    by_cases hf : 19 * m ≤ 20 * piece.length
    · rw [if_pos hf]
      simp [concatNonWs_append, concatNonWs_cons, concatNonWs, nonWs, hnil]
    · rw [if_neg hf]
      simp [hnil, nonWs]
  · rw [if_neg h0]
    by_cases hf : 19 * m ≤ 20 * (a.current ++ nl2 ++ piece).length
    · rw [if_pos hf]
      simp [concatNonWs_append, concatNonWs_cons, concatNonWs, nonWs_append, nl2,
        nonWs, isJsSpace, List.append_assoc]
    · rw [if_neg hf]
      simp [nonWs_append, nl2, nonWs, isJsSpace, List.append_assoc]

lemma findSplitPoint_le (rest : List Char) (size : Nat) :
    findSplitPoint rest size ≤ size := by
  unfold findSplitPoint
  by_cases h : size < rest.length
  · rw [if_pos h]
    cases hf : (List.range size).reverse.find? (fun i =>
        decide (4 * size / 5 ≤ i) && ((rest.get? i).elim false (hardPunct.contains ·))) with
    | none => exact le_refl size
    | some i =>
      have hmem := List.mem_of_find?_eq_some hf
      rw [List.mem_reverse, List.mem_range] at hmem
      show i + 1 ≤ size
      omega
  · rw [if_neg h]

lemma findSplitPoint_pos (rest : List Char) (size : Nat) (h1 : 1 ≤ size) :
    1 ≤ findSplitPoint rest size := by
  unfold findSplitPoint
  by_cases h : size < rest.length
  · rw [if_pos h]
    cases hf : (List.range size).reverse.find? (fun i =>
        decide (4 * size / 5 ≤ i) && ((rest.get? i).elim false (hardPunct.contains ·))) with
    | none => exact h1
    | some i => show 1 ≤ i + 1; omega
  · rw [if_neg h]; exact h1

lemma hardSplitGo_nonWs (m : Nat) (hm : 1 ≤ m) : ∀ (fuel : Nat) (rest : List Char) (a : SegAcc),
    rest.length ≤ fuel →
    accNonWs (hardSplitGo m fuel rest a) = accNonWs a ++ nonWs rest := by
  intro fuel
  induction fuel with
  | zero =>
    intro rest a hr
    have : rest = [] := List.length_eq_zero.mp (Nat.le_zero.mp hr)
    subst this
    simp [hardSplitGo, nonWs]
  | succ n ih =>
    intro rest a hr
    rw [hardSplitGo]
    by_cases he : rest.isEmpty = true
    · rw [if_pos he, List.isEmpty_iff.mp he]
      simp [nonWs]
    · rw [if_neg he]
      have hne : rest ≠ [] := fun h => he (by simp [h])
      have hlen : 1 ≤ rest.length := List.length_pos.mpr hne
      have hsize : 1 ≤ min rest.length m := le_min hlen hm
      have hsp : 1 ≤ findSplitPoint rest (min rest.length m) :=
        findSplitPoint_pos rest _ hsize
      rw [ih _ _ (by simp only [List.length_drop]; omega)]
      rw [pushPiece_nonWs]
      rw [List.append_assoc, ← nonWs_append, List.take_append_drop]

lemma processSentence_nonWs (m : Nat) (hm : 1 ≤ m) (a : SegAcc) (s : List Char) :
    accNonWs (processSentence m a s) = accNonWs a ++ nonWs s := by
  unfold processSentence
  by_cases h : m < s.length
  · rw [if_pos h, hardSplitGo_nonWs m hm s.length s a (le_refl _)]
  · rw [if_neg h, pushPiece_nonWs]

lemma foldl_processSentence_nonWs (m : Nat) (hm : 1 ≤ m) :
    ∀ (l : List (List Char)) (a : SegAcc),
    accNonWs (l.foldl (processSentence m) a) = accNonWs a ++ concatNonWs l := by
  intro l
  induction l with
  | nil => intro a; simp [concatNonWs]
  | cons x xs ih =>
    intro a
    rw [List.foldl_cons, ih, processSentence_nonWs m hm, concatNonWs_cons,
      List.append_assoc]

lemma nonWs_nil_of_trim {p : List Char} (h : (jsTrim p).isEmpty = true) : nonWs p = [] := by
  rw [List.isEmpty_iff] at h
  unfold jsTrim at h
  have h1 : (p.dropWhile isJsSpace).reverse.dropWhile isJsSpace = [] := by
    rw [← List.reverse_eq_nil_iff]; exact h
  have h2 : nonWs ((p.dropWhile isJsSpace).reverse.dropWhile isJsSpace) =
      nonWs ((p.dropWhile isJsSpace).reverse) := nonWs_dropWhile _ (fun c hc => hc) _
  rw [h1] at h2
  have h3 : nonWs ((p.dropWhile isJsSpace).reverse) = [] := h2.symm
  rw [nonWs, List.filter_reverse, List.reverse_eq_nil_iff] at h3
  rw [← nonWs_dropWhile isJsSpace (fun c hc => hc) p]
  exact h3

lemma processParagraph_nonWs (m : Nat) (hm : 1 ≤ m) (a : SegAcc) (p : List Char) :
    accNonWs (processParagraph m a p) = accNonWs a ++ nonWs p := by
  unfold processParagraph
  by_cases ht : (jsTrim p).isEmpty = true
  · rw [if_pos ht, nonWs_nil_of_trim ht, List.append_nil]
  · rw [if_neg ht]
    by_cases hl : m < p.length
    · rw [if_pos hl, foldl_processSentence_nonWs m hm, splitSentences_nonWs]
    · rw [if_neg hl, pushPiece_nonWs]

lemma foldl_processParagraph_nonWs (m : Nat) (hm : 1 ≤ m) :
    ∀ (l : List (List Char)) (a : SegAcc),
    accNonWs (l.foldl (processParagraph m) a) = accNonWs a ++ concatNonWs l := by
  intro l
  induction l with
  | nil => intro a; simp [concatNonWs]
  | cons x xs ih =>
    intro a
    rw [List.foldl_cons, ih, processParagraph_nonWs m hm, concatNonWs_cons,
      List.append_assoc]

/-- C3: splitting, then rejoining the segments with the same double-newline
separator, preserves the sequence of non-whitespace characters of the input
text — nothing outside whitespace is dropped or duplicated.  (This snapshot's
`splitTextIntoChunks` attaches no position markers, so there is nothing to
strip before rejoining.) -/
theorem splitTextIntoChunks_preserves_content (text : List Char) (maxSize : Nat)
    (h : 1 ≤ maxSize) :
    nonWs (joinNN (splitTextIntoChunks text maxSize)) = nonWs text := by
  rw [nonWs_joinNN]
  unfold splitTextIntoChunks
  by_cases hle : text.length ≤ maxSize
  · rw [if_pos hle]
    simp [concatNonWs]
  · rw [if_neg hle]
    have hacc := foldl_processParagraph_nonWs maxSize h (splitParas text) ⟨[], []⟩
    rw [splitParas_nonWs] at hacc
    have hinit : accNonWs ⟨[], []⟩ = [] := by simp [accNonWs, concatNonWs, nonWs]
    rw [hinit, List.nil_append] at hacc
    set a := (splitParas text).foldl (processParagraph maxSize) ⟨[], []⟩ with ha
    by_cases hc : a.current.length ≠ 0
    · rw [if_pos hc]
      rw [concatNonWs_append, concatNonWs_cons]
      rw [accNonWs] at hacc
      simp only [concatNonWs, List.map_nil, List.flatten_nil, List.append_nil] at hacc ⊢
      exact hacc
    · rw [if_neg hc]
      push_neg at hc
      have hnil : a.current = [] := List.length_eq_zero.mp hc
      rw [accNonWs, hnil] at hacc
      simpa [nonWs] using hacc

/-- Witness for C3 at a concrete input. -/
theorem splitTextIntoChunks_preserves_content_witness :
    nonWs (joinNN (splitTextIntoChunks
        ['a', 'b', '\n', '\n', 'c', 'd'] 3)) = nonWs ['a', 'b', '\n', '\n', 'c', 'd'] :=
  splitTextIntoChunks_preserves_content ['a', 'b', '\n', '\n', 'c', 'd'] 3 (by decide)

/-- The size bound the segmenter actually guarantees: a flushed chunk is the
pre-append buffer (strictly below the 95% threshold), plus the two-character
separator, plus one piece of at most `maxSize` characters. -/
def chunkBound (m : Nat) : Nat := m + 2 + (19 * m - 1) / 20

/-- Invariant of the segmenter loops: emitted chunks are within `chunkBound`
and the running buffer is strictly below the 95% flush threshold. -/
def BoundedAcc (m : Nat) (a : SegAcc) : Prop :=
  (∀ c ∈ a.chunks, c.length ≤ chunkBound m) ∧ 20 * a.current.length < 19 * m

lemma pushPiece_bounded (m : Nat) (a : SegAcc) (piece : List Char)
    (hp : piece.length ≤ m) (hb : BoundedAcc m a) : BoundedAcc m (pushPiece m a piece) := by
  obtain ⟨hchunks, hcur⟩ := hb
  have hcurle : a.current.length ≤ (19 * m - 1) / 20 := by
    rw [Nat.le_div_iff_mul_le (by omega : (0:Nat) < 20)]
    omega
  unfold pushPiece
  by_cases h0 : a.current.length = 0
  · rw [if_pos h0]
    by_cases hf : 19 * m ≤ 20 * piece.length
    · rw [if_pos hf]
      refine ⟨?_, ?_⟩
      · intro c hc
        rcases List.mem_append.mp hc with h | h
        · exact hchunks c h
        · rw [List.mem_singleton.mp h]
          unfold chunkBound; omega
      · show 20 * ([] : List Char).length < 19 * m
        simp only [List.length_nil]; omega
    · rw [if_neg hf]
      refine ⟨hchunks, ?_⟩
      show 20 * piece.length < 19 * m
      omega
  · rw [if_neg h0]
    by_cases hf : 19 * m ≤ 20 * (a.current ++ nl2 ++ piece).length
    · rw [if_pos hf]
      refine ⟨?_, ?_⟩
      · intro c hc
        rcases List.mem_append.mp hc with h | h
        · exact hchunks c h
        · rw [List.mem_singleton.mp h]
          simp only [List.length_append, nl2, List.length_cons, List.length_nil]
          unfold chunkBound
          omega
      · show 20 * ([] : List Char).length < 19 * m
        simp only [List.length_nil]; omega
    · rw [if_neg hf]
      refine ⟨hchunks, ?_⟩
      show 20 * (a.current ++ nl2 ++ piece).length < 19 * m
      omega

lemma hardSplitGo_bounded (m : Nat) : ∀ (fuel : Nat) (rest : List Char) (a : SegAcc),
    BoundedAcc m a → BoundedAcc m (hardSplitGo m fuel rest a) := by
  intro fuel
  induction fuel with
  | zero => intro rest a hb; exact hb
  | succ n ih =>
    intro rest a hb
    rw [hardSplitGo]
    by_cases he : rest.isEmpty = true
    · rw [if_pos he]; exact hb
    · rw [if_neg he]
      apply ih
      apply pushPiece_bounded m _ _ _ hb
      calc (rest.take (findSplitPoint rest (min rest.length m))).length
          ≤ findSplitPoint rest (min rest.length m) := by
            simp only [List.length_take]; exact min_le_left _ _
        _ ≤ min rest.length m := findSplitPoint_le ..
        _ ≤ m := min_le_right ..

lemma processSentence_bounded (m : Nat) (a : SegAcc) (s : List Char)
    (hb : BoundedAcc m a) : BoundedAcc m (processSentence m a s) := by
  unfold processSentence
  by_cases h : m < s.length
  · rw [if_pos h]; exact hardSplitGo_bounded m _ _ _ hb
  · rw [if_neg h]; exact pushPiece_bounded m _ _ (by omega) hb

lemma foldl_processSentence_bounded (m : Nat) :
    ∀ (l : List (List Char)) (a : SegAcc),
    BoundedAcc m a → BoundedAcc m (l.foldl (processSentence m) a) := by
  intro l
  induction l with
  | nil => intro a hb; exact hb
  | cons x xs ih => intro a hb; exact ih _ (processSentence_bounded m a x hb)

lemma processParagraph_bounded (m : Nat) (a : SegAcc) (p : List Char)
    (hb : BoundedAcc m a) : BoundedAcc m (processParagraph m a p) := by
  unfold processParagraph
  by_cases ht : (jsTrim p).isEmpty = true
  · rw [if_pos ht]; exact hb
  · rw [if_neg ht]
    by_cases hl : m < p.length
    · rw [if_pos hl]; exact foldl_processSentence_bounded m _ _ hb
    · rw [if_neg hl]; exact pushPiece_bounded m _ _ (by omega) hb

lemma foldl_processParagraph_bounded (m : Nat) :
    ∀ (l : List (List Char)) (a : SegAcc),
    BoundedAcc m a → BoundedAcc m (l.foldl (processParagraph m) a) := by
  intro l
  induction l with
  | nil => intro a hb; exact hb
  | cons x xs ih => intro a hb; exact ih _ (processParagraph_bounded m a x hb)

/-- C9 (amended): a segment produced by `splitTextIntoChunks` can exceed
`maxSize` (the flush happens only after appending), but is always bounded by
`maxSize + 2 + ⌊(19·maxSize − 1)/20⌋` — i.e. strictly less than
`1.95·maxSize + 3`. -/
theorem splitTextIntoChunks_size_bound (text : List Char) (maxSize : Nat)
    (h : 1 ≤ maxSize) :
    ∀ c ∈ splitTextIntoChunks text maxSize, c.length ≤ chunkBound maxSize := by
  intro c hc
  unfold splitTextIntoChunks at hc
  by_cases hle : text.length ≤ maxSize
  · rw [if_pos hle] at hc
    rw [List.mem_singleton.mp hc]
    unfold chunkBound; omega
  · rw [if_neg hle] at hc
    have hinit : BoundedAcc maxSize ⟨[], []⟩ := by
      constructor
      · intro x hx; simp at hx
      · simp only [List.length_nil]; omega
    have hb := foldl_processParagraph_bounded maxSize (splitParas text) ⟨[], []⟩ hinit
    set a := (splitParas text).foldl (processParagraph maxSize) ⟨[], []⟩ with ha
    obtain ⟨hchunks, hcur⟩ := hb
    have hcurle : a.current.length ≤ (19 * maxSize - 1) / 20 := by
      rw [Nat.le_div_iff_mul_le (by omega : (0:Nat) < 20)]
      omega
    by_cases h0 : a.current.length ≠ 0
    · rw [if_pos h0] at hc
      rcases List.mem_append.mp hc with hx | hx
      · exact hchunks c hx
      · rw [List.mem_singleton.mp hx]
        unfold chunkBound; omega
    · rw [if_neg h0] at hc
      exact hchunks c hc

/-- Witness for the amended C9 at a concrete input: the single chunk produced
for `"aaaa\n\nbbbbbbbb"` with `maxSize = 10` has length 14 ≤ `chunkBound 10 = 21`. -/
theorem splitTextIntoChunks_size_bound_witness :
    ("aaaa\n\nbbbbbbbb".toList : List Char).length ≤ chunkBound 10 :=
  splitTextIntoChunks_size_bound "aaaa\n\nbbbbbbbb".toList 10 (by decide)
    "aaaa\n\nbbbbbbbb".toList (by decide)

/-- C9 counterexample: with `maxSize = 10`, the text `"aaaa\n\nbbbbbbbb"`
(length 14) yields a segment of length 14 > 10 — segments are not bounded by
`maxSize`: the buffer is flushed only after appending a paragraph to it. -/
theorem splitTextIntoChunks_size_cex :
    (splitTextIntoChunks "aaaa\n\nbbbbbbbb".toList 10).any
      (fun c => decide (10 < c.length)) = true := by
  decide

lemma foldl_processParagraph_ws (m : Nat) :
    ∀ (l : List (List Char)), (∀ p ∈ l, ∀ c ∈ p, isJsSpace c = true) →
      ∀ a : SegAcc, l.foldl (processParagraph m) a = a := by
  intro l
  induction l with
  | nil => intro _ a; rfl
  | cons p ps ih =>
    intro h a
    have htrim : (jsTrim p).isEmpty = true := by
      have hdrop : p.dropWhile isJsSpace = [] :=
        List.dropWhile_eq_nil_iff.mpr (fun x hx => h p (List.mem_cons_self ..) x hx)
      rw [jsTrim, hdrop]
      rfl
    rw [List.foldl_cons]
    have hp : processParagraph m a p = a := by
      unfold processParagraph
      rw [if_pos htrim]
    rw [hp]
    exact ih (fun q hq => h q (List.mem_cons_of_mem _ hq)) a

/-- C10: a text no longer than `maxChunkSize` (the empty string included)
yields exactly one segment, the whole text; a longer text all of whose
paragraphs are whitespace-only yields no segments at all. -/
theorem splitTextIntoChunks_degenerate (text : List Char) (m : Nat) :
    (text.length ≤ m → splitTextIntoChunks text m = [text]) ∧
    (m < text.length → (∀ p ∈ splitParas text, ∀ c ∈ p, isJsSpace c = true) →
      splitTextIntoChunks text m = []) := by
  constructor
  · intro h
    unfold splitTextIntoChunks
    rw [if_pos h]
  · intro h hws
    unfold splitTextIntoChunks
    rw [if_neg (by omega)]
    rw [foldl_processParagraph_ws m (splitParas text) hws ⟨[], []⟩]
    simp

/-- Witness for C10 at concrete inputs: the empty string (within any bound)
gives one whole-text segment; an over-long all-whitespace text gives zero
segments. -/
theorem splitTextIntoChunks_degenerate_witness :
    splitTextIntoChunks [] 4 = [[]] ∧
      splitTextIntoChunks ['\n', '\n', '\n'] 2 = [] :=
  ⟨(splitTextIntoChunks_degenerate [] 4).1 (by decide),
    (splitTextIntoChunks_degenerate ['\n', '\n', '\n'] 2).2 (by decide) (by decide)⟩

/-! ## ResultStore (`setChunkContentAtomic`, `App.tsx` lines 118-135) -/

inductive ChunkState
  | pending
  | streaming
  | completed
  | error
deriving DecidableEq

/--  The React state the store mutates: chunk contents, per-chunk states (the
`chunkStatesRef` mirror is read within the same synchronous update, per the
spec's per-slot atomicity assumption), the fixed total and the completed
counter. -/
structure AppStore where
  outputChunks : List (List Char)
  chunkStates : List ChunkState
  totalChunks : Nat
  completedChunks : Nat
deriving DecidableEq

/-- `setChunkContentAtomic(idx, content, final, stateOverride)` (`App.tsx`
lines 118-135).  The `setOutputChunks` updater returns the previous contents
untouched when the slot's state is already `'completed'`; the
`setChunkStates` updater unconditionally writes
`stateOverride ?? (final ? 'completed' : 'streaming')` and recounts the
completed slots.  (`totalChunks || prev.length` is the 0-falsy test; a JS
sparse write past the array end is not modelled — the claims touch in-range
slots only.) -/
def setChunkContentAtomic (s : AppStore) (idx : Nat) (content : List Char)
    (final : Bool) (stateOverride : Option ChunkState) : AppStore :=
  let chunksBase :=
    if s.outputChunks.length ≠ 0 then s.outputChunks
    else List.replicate (if s.totalChunks ≠ 0 then s.totalChunks else s.outputChunks.length) []
  let newChunks :=
    if s.chunkStates.get? idx = some ChunkState.completed then s.outputChunks
    else chunksBase.set idx content
  let statesBase :=
    if s.chunkStates.length ≠ 0 then s.chunkStates
    else List.replicate (if s.totalChunks ≠ 0 then s.totalChunks else s.outputChunks.length)
      ChunkState.pending
  let newStates := statesBase.set idx
    (stateOverride.getD (if final then ChunkState.completed else ChunkState.streaming))
  { outputChunks := newChunks
    chunkStates := newStates
    totalChunks := s.totalChunks
    completedChunks := newStates.count ChunkState.completed }

/-- C1 counterexample: with slot 0 already `completed` (content `"done"`), a
later `setChunkContentAtomic(0, "x", final := false)` leaves the content
unchanged but moves the slot's state back to `streaming` — the call is not a
no-op on the state, refuting the claim that both content and state are left
unchanged. -/
theorem setChunkContentAtomic_completed_cex :
    (setChunkContentAtomic
        ⟨[['d', 'o', 'n', 'e']], [ChunkState.completed], 1, 1⟩
        0 ['x'] false none).outputChunks = [['d', 'o', 'n', 'e']] ∧
    (setChunkContentAtomic
        ⟨[['d', 'o', 'n', 'e']], [ChunkState.completed], 1, 1⟩
        0 ['x'] false none).chunkStates = [ChunkState.streaming] := by
  decide

/-- C1 (amended): once a slot is `completed`, a later `setChunkContentAtomic`
call on it leaves the chunk contents entirely unchanged, but still overwrites
the slot's state with the newly requested state (`stateOverride`, else
`completed`/`streaming` according to `final`) — only the content half of the
"never overwrite a completed slot" invariant is enforced. -/
theorem setChunkContentAtomic_completed (s : AppStore) (idx : Nat) (content : List Char)
    (final : Bool) (stateOverride : Option ChunkState)
    (h : s.chunkStates.get? idx = some ChunkState.completed) :
    (setChunkContentAtomic s idx content final stateOverride).outputChunks = s.outputChunks ∧
    (setChunkContentAtomic s idx content final stateOverride).chunkStates =
      s.chunkStates.set idx
        (stateOverride.getD (if final then ChunkState.completed else ChunkState.streaming)) := by
  have hlen : s.chunkStates.length ≠ 0 := by
    intro h0
    rw [List.length_eq_zero.mp h0] at h
    simp at h
  have h' : s.chunkStates[idx]? = some ChunkState.completed := by
    simpa using h
  simp [setChunkContentAtomic, h', hlen]

/-- Witness for the amended C1 at a concrete store. -/
theorem setChunkContentAtomic_completed_witness :
    (setChunkContentAtomic ⟨[['d']], [ChunkState.completed], 1, 1⟩ 0 ['x'] false
        none).outputChunks = [['d']] ∧
    (setChunkContentAtomic ⟨[['d']], [ChunkState.completed], 1, 1⟩ 0 ['x'] false
        none).chunkStates = [ChunkState.completed].set 0
          ((none : Option ChunkState).getD
            (if false then ChunkState.completed else ChunkState.streaming)) :=
  setChunkContentAtomic_completed ⟨[['d']], [ChunkState.completed], 1, 1⟩ 0 ['x'] false
    none (by decide)

/-! ## `stripPartHeader` and the streaming delta assembler
(`translationService.ts` lines 85-88 and 358-371) -/

def isDigitCh (c : Char) : Bool := 48 ≤ c.toNat && c.toNat ≤ 57

/-- Match a case-insensitive literal (given in lowercase). -/
def eatLitCI : List Char → List Char → Option (List Char)
  | [], s => some s
  | l :: lit, c :: s => if c.toLower == l then eatLitCI lit s else none
  | _ :: _, [] => none

/-- `\s+`: one mandatory whitespace character then the greedy run. -/
def eatWs1 : List Char → Option (List Char)
  | c :: s => if isJsSpace c then some (s.dropWhile isJsSpace) else none
  | [] => none

/-- `\d+`. -/
def eatDigits1 : List Char → Option (List Char)
  | c :: s => if isDigitCh c then some (s.dropWhile isDigitCh) else none
  | [] => none

/-- The optional leading `(\*\*\s*)?` group. -/
def eatStarsOpt : List Char → List Char
  | '*' :: '*' :: r => r.dropWhile isJsSpace
  | s => s

/-- The optional trailing `(\s*\*\*)?` group: consumed only when `**` follows
the whitespace run, otherwise nothing is consumed. -/
def eatWsStarsOpt (s : List Char) : List Char :=
  match s.dropWhile isJsSpace with
  | '*' :: '*' :: r => r
  | _ => s

def expectChar (c : Char) : List Char → Option (List Char)
  | d :: s => if d == c then some s else none
  | [] => none

/-- Matcher for `/^\s*(\*\*\s*)?\[\s*Part\s+\d+\s+of\s+\d+\s*\](\s*\*\*)?\s*/i`
(the first replace of `stripPartHeader`); returns the suffix after the match.
All quantifiers are deterministic here: each greedy run is delimited by a
character that cannot extend it. -/
def matchPartHeader (s : List Char) : Option (List Char) :=
  (expectChar '[' (eatStarsOpt (s.dropWhile isJsSpace))).bind fun s2 =>
  (eatLitCI ['p', 'a', 'r', 't'] (s2.dropWhile isJsSpace)).bind fun s3 =>
  (eatWs1 s3).bind fun s4 =>
  (eatDigits1 s4).bind fun s5 =>
  (eatWs1 s5).bind fun s6 =>
  (eatLitCI ['o', 'f'] s6).bind fun s7 =>
  (eatWs1 s7).bind fun s8 =>
  (eatDigits1 s8).bind fun s9 =>
  (expectChar ']' (s9.dropWhile isJsSpace)).map fun s10 =>
    (eatWsStarsOpt s10).dropWhile isJsSpace

/-- Drop everything through the first `]`. -/
def dropThroughRB : List Char → Option (List Char)
  | [] => none
  | c :: r => if c == ']' then some r else dropThroughRB r

/-- Matcher for `/^\s*\[这是第[\s\S]*?\]\s*/i` (the second replace of
`stripPartHeader`); the lazy body ends at the first `]`. -/
def matchCnHeader (s : List Char) : Option (List Char) :=
  let w := s.dropWhile isJsSpace
  if List.isPrefixOf ['[', '这', '是', '第'] w then
    (dropThroughRB (w.drop 4)).map (·.dropWhile isJsSpace)
  else none

/-- `stripPartHeader` (`translationService.ts` lines 85-88): remove the
`[Part i of n]` marker if present, then the `[这是第…]` marker if present. -/
def stripPartHeader (s : List Char) : List Char :=
  let s1 := (matchPartHeader s).getD s
  (matchCnHeader s1).getD s1

/-- The per-slot delta loop of `translateTextStream` (lines 362-366): the slot
stores the *cleaned* cumulative buffer, and each emitted `deltaClean` is the
suffix of the new cleaned buffer past the length of the re-cleaned previous
buffer.  Returns (final slot content, emitted deltaClean list). -/
def streamSteps : List Char → List (List Char) → List Char × List (List Char)
  | buf, [] => (buf, [])
  | buf, d :: rest =>
    let cleanedBefore := stripPartHeader buf
    let cleanedAfter := stripPartHeader (buf ++ d)
    let next := streamSteps cleanedAfter rest
    (next.1, cleanedAfter.drop cleanedBefore.length :: next.2)

/-- Run the per-slot delta loop from the initial unset slot (`'' `). -/
def streamRun (ds : List (List Char)) : List Char × List (List Char) :=
  streamSteps [] ds

lemma streamSteps_stable (ds : List (List Char)) :
    ∀ (buf : List Char),
      (∀ k ∈ List.range (ds.length + 1),
        stripPartHeader (buf ++ (ds.take k).flatten) = buf ++ (ds.take k).flatten) →
      (streamSteps buf ds).1 = buf ++ ds.flatten ∧
      (streamSteps buf ds).2.flatten = ds.flatten := by
  induction ds with
  | nil =>
    intro buf h
    refine ⟨by simp [streamSteps], by simp [streamSteps]⟩
  | cons d rest ih =>
    intro buf h
    have h0 : stripPartHeader buf = buf := by
      have := h 0 (by simp)
      simpa using this
    have h1 : stripPartHeader (buf ++ d) = buf ++ d := by
      have := h 1 (by simp)
      simpa using this
    have hrest : ∀ k ∈ List.range (rest.length + 1),
        stripPartHeader ((buf ++ d) ++ (rest.take k).flatten)
          = (buf ++ d) ++ (rest.take k).flatten := by
      intro k hk
      have hk' : k + 1 ∈ List.range ((d :: rest).length + 1) := by
        simp only [List.mem_range, List.length_cons] at hk ⊢
        omega
      have := h (k + 1) hk'
      simpa [List.take_succ_cons, List.append_assoc] using this
    obtain ⟨ihA, ihB⟩ := ih (buf ++ d) hrest
    constructor
    · show (streamSteps (stripPartHeader (buf ++ d)) rest).1 = buf ++ (d :: rest).flatten
      rw [h1, ihA, List.flatten_cons, List.append_assoc]
    · show ((stripPartHeader (buf ++ d)).drop (stripPartHeader buf).length ::
          (streamSteps (stripPartHeader (buf ++ d)) rest).2).flatten = (d :: rest).flatten
      rw [h1, h0, List.flatten_cons, List.flatten_cons, ihB, List.drop_left]

/-- C8 (amended): when the marker stripping stabilises after the first delta —
no marker spans a delta boundary: re-stripping the growing buffer after any
later delta changes nothing (`h1`), and stripping the full concatenation
strips exactly what stripping the first delta strips (`h2`) — the emitted
`deltaClean` values concatenate to `stripPartHeader (d1 ++ … ++ dn)`, and the
slot's final stored content equals that same cleaned text.  Without the side
condition the equality fails: a marker fragment emitted before the marker is
complete is never retracted (see the counterexample). -/
theorem streamRun_deltaClean (d0 : List Char) (rest : List (List Char))
    (h1 : ∀ k ∈ List.range (rest.length + 1),
      stripPartHeader (stripPartHeader d0 ++ (rest.take k).flatten)
        = stripPartHeader d0 ++ (rest.take k).flatten)
    (h2 : stripPartHeader (d0 ++ rest.flatten) = stripPartHeader d0 ++ rest.flatten) :
    (streamRun (d0 :: rest)).2.flatten = stripPartHeader ((d0 :: rest).flatten) ∧
    (streamRun (d0 :: rest)).1 = stripPartHeader d0 ++ rest.flatten := by
  obtain ⟨hA, hB⟩ := streamSteps_stable rest (stripPartHeader d0) h1
  have hnil : stripPartHeader ([] : List Char) = [] := by decide
  unfold streamRun
  constructor
  · show ((stripPartHeader ([] ++ d0)).drop (stripPartHeader ([] : List Char)).length ::
        (streamSteps (stripPartHeader ([] ++ d0)) rest).2).flatten
        = stripPartHeader ((d0 :: rest).flatten)
    rw [List.nil_append, hnil, List.flatten_cons, List.flatten_cons, hB, h2]
    simp
  · show (streamSteps (stripPartHeader ([] ++ d0)) rest).1 = stripPartHeader d0 ++ rest.flatten
    rw [List.nil_append, hA]

/-- Witness for the amended C8: for deltas `"[Part 1 of 2] Hello"`, `" world"`
(marker contained in the first delta) the emitted deltas concatenate to
`"Hello world" = stripPartHeader` of the concatenation. -/
theorem streamRun_deltaClean_witness :
    (streamRun ["[Part 1 of 2] Hello".toList, " world".toList]).2.flatten =
      stripPartHeader ((["[Part 1 of 2] Hello".toList, " world".toList]
        : List (List Char)).flatten) ∧
    (streamRun ["[Part 1 of 2] Hello".toList, " world".toList]).1 =
      stripPartHeader "[Part 1 of 2] Hello".toList ++
        (([" world".toList] : List (List Char)).flatten) :=
  streamRun_deltaClean "[Part 1 of 2] Hello".toList [" world".toList]
    (by decide) (by decide)

/-- C8 counterexample: when the marker spans two deltas (`"[Part 1 "` then
`"of 2] Hi"`), the emitted `deltaClean` values concatenate to `"[Part 1 "`
(the prematurely emitted marker fragment, never retracted), while
`stripPartHeader` of the full concatenation is `"Hi"` — the claimed equality
fails. -/
theorem streamRun_deltaClean_cex :
    (streamRun ["[Part 1 ".toList, "of 2] Hi".toList]).2.flatten = "[Part 1 ".toList ∧
    stripPartHeader ("[Part 1 of 2] Hi".toList) = "Hi".toList ∧
    ("[Part 1 ".toList : List Char) ≠ "Hi".toList := by
  refine ⟨by decide, by decide, by decide⟩

/-! ## DispatchEngine: per-segment retry loop (`translateChunk`,
`translationService.ts` lines 182-249) and job aggregation (lines 251-268) -/

/-- An axios-style failure: the error `code`, the `message`, and the optional
proxy envelope error `response.data.error`. -/
structure AttemptError where
  code : List Char
  msg : List Char
  respError : Option (List Char)
deriving DecidableEq

/-- Outcome of one HTTP attempt for a segment: the parsed translated text with
the echoed `clientMeta.chunkIndex` (if any), or a failure. -/
inductive AttemptOutcome
  | ok (translation : List Char) (serverIdx : Option Nat)
  | fail (e : AttemptError)
deriving DecidableEq

/-- Transient-failure classification (lines 238-242):
`code === 'ECONNABORTED' || code === 'ECONNREFUSED' ||
message.includes('ERR_NETWORK') || message.includes('aborted')`.
`ECONNRESET` is not in this list. -/
def isTransient (e : AttemptError) : Bool :=
  e.code == "ECONNABORTED".toList || e.code == "ECONNREFUSED".toList ||
  jsIncludes e.msg "ERR_NETWORK".toList || jsIncludes e.msg "aborted".toList

/-- Observable events of one segment's retry loop: an HTTP attempt with its
`retryCount` value, or an awaited `retryDelay` sleep. -/
inductive ChunkEvent
  | attempt (rc : Nat)
  | wait
deriving DecidableEq

def isAttemptEv : ChunkEvent → Bool
  | .attempt _ => true
  | .wait => false

/-- Result of a segment's retry loop. -/
inductive ChunkResult
  | completed (translation : List Char) (serverIdx : Option Nat)
  | errored (e : AttemptError)
deriving DecidableEq

def isErroredRes : ChunkResult → Bool
  | .errored _ => true
  | .completed _ _ => false

/-- The `while (retryCount <= maxRetries)` loop (lines 190-248); `oracle n`
is the outcome of the attempt made with `retryCount = n`.  On failure with
`retryCount === maxRetries` the loop records the error and returns; a
transient failure awaits `retryDelay` before re-entering the loop; a
non-transient failure retries immediately.  Fuel is structural; the top-level
call passes `maxRetries + 1`, which always suffices, so the fuel-0 sentinel is
unreachable (as is the `rc > maxRetries` guard — every loop iteration
returns). -/
def translateChunkLoop (oracle : Nat → AttemptOutcome) (maxRetries : Nat) :
    Nat → Nat → List ChunkEvent × ChunkResult
  | 0, _ => ([], .errored ⟨[], [], none⟩)
  | fuel + 1, rc =>
    if rc ≤ maxRetries then
      match oracle rc with
      | .ok t sidx => ([.attempt rc], .completed t sidx)
      | .fail e =>
        if rc = maxRetries then ([.attempt rc], .errored e)
        else
          let next := translateChunkLoop oracle maxRetries fuel (rc + 1)
          (.attempt rc :: ((if isTransient e then [.wait] else []) ++ next.1), next.2)
    else ([], .errored ⟨[], [], none⟩)

def translateChunkRun (oracle : Nat → AttemptOutcome) (maxRetries : Nat) :
    List ChunkEvent × ChunkResult :=
  translateChunkLoop oracle maxRetries (maxRetries + 1) 0

def digitChar : Nat → Char
  | 0 => '0' | 1 => '1' | 2 => '2' | 3 => '3' | 4 => '4'
  | 5 => '5' | 6 => '6' | 7 => '7' | 8 => '8' | 9 => '9'
  | _ => '*'

/-- Decimal digits of a natural number (JS number-to-string interpolation for
the naturals appearing here).  Fuel is structural and `n + 1` always
suffices. -/
def natCharsGo : Nat → Nat → List Char → List Char
  | 0, _, acc => acc
  | fuel + 1, n, acc =>
    if n < 10 then digitChar n :: acc
    else natCharsGo fuel (n / 10) (digitChar (n % 10) :: acc)

def natChars (n : Nat) : List Char := natCharsGo (n + 1) n []

/-- The placeholder `[翻译错误: 第${i+1}部分未能成功翻译]\n\n` (line 227),
embedding the 1-based segment number. -/
def errorPlaceholder (i : Nat) : List Char :=
  "[翻译错误: 第".toList ++ natChars (i + 1) ++ "部分未能成功翻译]\n\n".toList

/-- The job's shared mutable state: the per-slot results (JS `undefined` both
for out-of-range and unset slots), the error list, the emission watermark and
the accumulated text. -/
structure JobState where
  results : List (Option (List Char))
  errors : List (Nat × List Char)
  nextToEmit : Nat
  translatedText : List Char
deriving DecidableEq

/-- `while (typeof results[nextToEmit] !== 'undefined') { translatedText +=
results[nextToEmit]; nextToEmit++ }` (lines 212-215 / 229-232); the fuel
`results.length + 1` always suffices. -/
def emitLoop (results : List (Option (List Char))) : Nat → Nat → List Char → Nat × List Char
  | 0, n, acc => (n, acc)
  | fuel + 1, n, acc =>
    match results.get? n with
    | some (some s) => emitLoop results fuel (n + 1) (acc ++ s)
    | _ => (n, acc)

/-- Apply one settled segment's effects to the job state (success: lines
206-219, writing `stripPartHeader`-cleaned text plus the `\n\n` separator when
`total > 1` under the server-echoed index if present; exhausted failure: lines
222-236, writing the placeholder and appending
`response?.data?.error || message` to the error list), then advance the
watermark. -/
def applyChunkOutcome (total i : Nat) (res : ChunkResult) (st : JobState) : JobState :=
  match res with
  | .completed t sidx =>
    let idx := sidx.getD i
    let results := st.results.set idx
      (some (stripPartHeader t ++ (if 1 < total then nl2 else [])))
    let em := emitLoop results (results.length + 1) st.nextToEmit st.translatedText
    { results := results, errors := st.errors, nextToEmit := em.1, translatedText := em.2 }
  | .errored e =>
    let results := st.results.set i (some (errorPlaceholder i))
    let errors := st.errors ++ [(i, (e.respError).getD e.msg)]
    let em := emitLoop results (results.length + 1) st.nextToEmit st.translatedText
    { results := results, errors := errors, nextToEmit := em.1, translatedText := em.2 }

/-- Drive every segment through its retry loop and fold the effects into the
job state, in index order.  (The source dispatches concurrency-bounded
batches; completion order within a batch only permutes the order in which
disjoint slots are written and error entries appended.) -/
def runJob (oracles : Nat → Nat → AttemptOutcome) (maxRetries total : Nat) : JobState :=
  (List.range total).foldl
    (fun st i => applyChunkOutcome total i (translateChunkRun (oracles i) maxRetries).2 st)
    ⟨List.replicate total none, [], 0, []⟩

structure TranslationResult where
  translatedText : List Char
  errors : Option (List (Nat × List Char))
deriving DecidableEq

/-- The tail of `translateText` (lines 259-268): throw when
`translationErrors.length === total`, else return the trimmed text with the
error list attached when non-empty. -/
def finishJob (total : Nat) (st : JobState) : Except (List Char) TranslationResult :=
  if st.errors.length = total then
    .error "所有翻译请求均失败，请检查API密钥和网络连接".toList
  else
    .ok ⟨jsTrim st.translatedText, if st.errors.length ≠ 0 then some st.errors else none⟩

def translateTextModel (oracles : Nat → Nat → AttemptOutcome) (maxRetries total : Nat) :
    Except (List Char) TranslationResult :=
  finishJob total (runJob oracles maxRetries total)

/-- The number of segments whose retry loop ended in `Error`. -/
def erroredSegs (oracles : Nat → Nat → AttemptOutcome) (maxRetries total : Nat) : Nat :=
  ((List.range total).filter
    (fun i => isErroredRes (translateChunkRun (oracles i) maxRetries).2)).length

/-- A connection-reset failure as axios surfaces it. -/
def resetError : AttemptError :=
  ⟨"ECONNRESET".toList, "read ECONNRESET".toList, none⟩

def demoJobState : JobState := ⟨[none, none], [], 0, []⟩

/-- C4 (amended): against a backend failing on every attempt (maxRetries = 3)
the retry loop makes exactly 3 + 1 attempts; an attempt failing with a
*code-classified* transient error (`ECONNABORTED`, `ECONNREFUSED`, or a
message containing `ERR_NETWORK`/`aborted` — a connection *reset* is NOT in
this class) is followed by exactly one `retryDelay` wait before the next
attempt, while any other failure retries with no wait; when the budget is
exhausted the segment's slot receives the placeholder embedding the 1-based
segment number, one entry is appended to the job's error list, and every
other slot is left untouched. -/
theorem translateChunk_exhausts_budget (fails : Nat → AttemptError) (total i : Nat)
    (st : JobState) :
    (translateChunkRun (fun n => .fail (fails n)) 3).1 =
        [ChunkEvent.attempt 0] ++ (if isTransient (fails 0) then [ChunkEvent.wait] else []) ++
        [ChunkEvent.attempt 1] ++ (if isTransient (fails 1) then [ChunkEvent.wait] else []) ++
        [ChunkEvent.attempt 2] ++ (if isTransient (fails 2) then [ChunkEvent.wait] else []) ++
        [ChunkEvent.attempt 3] ∧
    ((translateChunkRun (fun n => .fail (fails n)) 3).1.filter isAttemptEv).length = 3 + 1 ∧
    (translateChunkRun (fun n => .fail (fails n)) 3).2 = .errored (fails 3) ∧
    (applyChunkOutcome total i (.errored (fails 3)) st).results =
      st.results.set i (some (errorPlaceholder i)) ∧
    (applyChunkOutcome total i (.errored (fails 3)) st).errors =
      st.errors ++ [(i, ((fails 3).respError).getD (fails 3).msg)] ∧
    ∀ j, j ≠ i → (applyChunkOutcome total i (.errored (fails 3)) st).results.get? j =
      st.results.get? j := by
  refine ⟨?_, ?_, ?_, ?_, ?_, ?_⟩
  · by_cases h0 : isTransient (fails 0) <;> by_cases h1 : isTransient (fails 1) <;>
      by_cases h2 : isTransient (fails 2) <;>
      simp [translateChunkRun, translateChunkLoop, h0, h1, h2]
  · by_cases h0 : isTransient (fails 0) <;> by_cases h1 : isTransient (fails 1) <;>
      by_cases h2 : isTransient (fails 2) <;>
      simp [translateChunkRun, translateChunkLoop, h0, h1, h2, isAttemptEv]
  · simp [translateChunkRun, translateChunkLoop]
  · simp [applyChunkOutcome]
  · simp [applyChunkOutcome]
  · intro j hj
    show (st.results.set i (some (errorPlaceholder i))).get? j = st.results.get? j
    exact List.get?_set_ne _ _ (Ne.symm hj)

/-- Witness for the amended C4 at a concrete input (an always-resetting
backend, two slots, segment 0): four attempts, and slot 1 untouched. -/
theorem translateChunk_exhausts_budget_witness :
    ((translateChunkRun (fun _ => .fail resetError) 3).1.filter isAttemptEv).length = 3 + 1 ∧
    (applyChunkOutcome 2 0 (.errored resetError) demoJobState).results.get? 1 =
      demoJobState.results.get? 1 :=
  ⟨(translateChunk_exhausts_budget (fun _ => resetError) 2 0 demoJobState).2.1,
    (translateChunk_exhausts_budget (fun _ => resetError) 2 0 demoJobState).2.2.2.2.2
      1 (by decide)⟩

/-- C4 counterexample: a backend that always fails with `ECONNRESET`
("read ECONNRESET") — a transient *network-reset* error in the claim's
taxonomy — is retried with NO `retryDelay` wait between the four attempts:
the code's transient classification omits connection resets, refuting the
claim that reset failures are preceded by the delay. -/
theorem translateChunk_reset_no_delay_cex :
    isTransient resetError = false ∧
    (translateChunkRun (fun _ => .fail resetError) 3).1 =
      [ChunkEvent.attempt 0, ChunkEvent.attempt 1,
        ChunkEvent.attempt 2, ChunkEvent.attempt 3] := by
  refine ⟨by decide, by decide⟩

lemma applyChunkOutcome_errors (total i : Nat) (res : ChunkResult) (st : JobState) :
    (applyChunkOutcome total i res st).errors =
      match res with
      | .completed _ _ => st.errors
      | .errored e => st.errors ++ [(i, (e.respError).getD e.msg)] := by
  cases res <;> simp [applyChunkOutcome]

lemma foldJob_errors_length (oracles : Nat → Nat → AttemptOutcome) (maxRetries total : Nat) :
    ∀ (l : List Nat) (st : JobState),
      ((l.foldl (fun st i =>
          applyChunkOutcome total i (translateChunkRun (oracles i) maxRetries).2 st)
        st).errors).length
        = st.errors.length +
          (l.filter (fun i => isErroredRes (translateChunkRun (oracles i) maxRetries).2)).length := by
  intro l
  induction l with
  | nil => intro st; simp
  | cons x xs ih =>
    intro st
    rw [List.foldl_cons, ih, applyChunkOutcome_errors]
    cases hres : (translateChunkRun (oracles x) maxRetries).2 with
    | completed t sidx => simp [List.filter_cons, hres, isErroredRes]
    | errored e => simp [List.filter_cons, hres, isErroredRes]; omega

/-- C5: if every segment's retry loop ended in `Error` (the error list length
equals the segment total), `translateText` throws the aggregate failure
instead of returning the placeholder text; if at least one segment succeeded
(fewer errored segments than segments), it returns a successful result whose
`errors` field carries the job's error list whenever it is non-empty. -/
theorem translateText_allError (oracles : Nat → Nat → AttemptOutcome)
    (maxRetries total : Nat) :
    (runJob oracles maxRetries total).errors.length = erroredSegs oracles maxRetries total ∧
    (erroredSegs oracles maxRetries total = total →
      translateTextModel oracles maxRetries total =
        .error "所有翻译请求均失败，请检查API密钥和网络连接".toList) ∧
    (erroredSegs oracles maxRetries total < total →
      ∃ res, translateTextModel oracles maxRetries total = .ok res ∧
        res.errors = if erroredSegs oracles maxRetries total ≠ 0
          then some (runJob oracles maxRetries total).errors else none) := by
  have hlen : (runJob oracles maxRetries total).errors.length
      = erroredSegs oracles maxRetries total := by
    unfold runJob erroredSegs
    rw [foldJob_errors_length]
    simp
  refine ⟨hlen, ?_, ?_⟩
  · intro h
    unfold translateTextModel finishJob
    rw [if_pos (by rw [hlen, h])]
  · intro h
    unfold translateTextModel finishJob
    rw [if_neg (by rw [hlen]; omega)]
    exact ⟨_, rfl, by rw [hlen]⟩

/-- A backend where segment 0 succeeds and every other segment always fails. -/
def demoOracleMixed : Nat → Nat → AttemptOutcome :=
  fun i _ => if i = 0 then .ok "Hi".toList none else .fail resetError

/-- Witness for C5 at concrete inputs: two segments that both fail make the
job throw; one success plus one failure returns a result carrying the
non-empty error list. -/
theorem translateText_allError_witness :
    translateTextModel (fun _ _ => .fail resetError) 3 2 =
      .error "所有翻译请求均失败，请检查API密钥和网络连接".toList ∧
    (∃ res, translateTextModel demoOracleMixed 3 2 = .ok res ∧
      res.errors = if erroredSegs demoOracleMixed 3 2 ≠ 0
        then some (runJob demoOracleMixed 3 2).errors else none) :=
  ⟨(translateText_allError (fun _ _ => .fail resetError) 3 2).2.1 (by decide),
    (translateText_allError demoOracleMixed 3 2).2.2 (by decide)⟩

/-! ## The v2 snapshot segmenter and its position markers
(`translationService.ts` second snapshot, lines 414-497) -/

def digitVal (c : Char) : Nat := c.toNat - 48

def digitsToNat (l : List Char) : Nat := l.foldl (fun acc c => 10 * acc + digitVal c) 0

lemma digitChar_isDigit {k : Nat} (h : k < 10) : isDigitCh (digitChar k) = true := by
  interval_cases k <;> decide

lemma digitVal_digitChar {k : Nat} (h : k < 10) : digitVal (digitChar k) = k := by
  interval_cases k <;> decide

lemma natCharsGo_append : ∀ (fuel n : Nat) (acc : List Char), n < fuel →
    natCharsGo fuel n acc = natCharsGo fuel n [] ++ acc := by
  intro fuel
  induction fuel with
  | zero => intro n acc h; omega
  | succ f ih =>
    intro n acc h
    by_cases h10 : n < 10
    · simp [natCharsGo, h10]
    · simp only [natCharsGo, if_neg h10]
      rw [ih (n / 10) _ (by omega), ih (n / 10) [digitChar (n % 10)] (by omega)]
      simp

lemma natCharsGo_stable : ∀ (n fuel fuel' : Nat), n < fuel → n < fuel' →
    natCharsGo fuel n [] = natCharsGo fuel' n [] := by
  intro n
  induction n using Nat.strong_induction_on with
  | _ n ih =>
    intro fuel fuel' hf hf'
    cases fuel with
    | zero => omega
    | succ f =>
      cases fuel' with
      | zero => omega
      | succ f' =>
        by_cases h10 : n < 10
        · simp [natCharsGo, h10]
        · simp only [natCharsGo, if_neg h10]
          rw [natCharsGo_append f (n / 10) _ (by omega),
            natCharsGo_append f' (n / 10) _ (by omega),
            ih (n / 10) (by omega) f f' (by omega) (by omega)]

lemma natChars_eq_of_lt {n : Nat} (h : n < 10) : natChars n = [digitChar n] := by
  simp [natChars, natCharsGo, h]

lemma natChars_eq_of_ge {n : Nat} (h : 10 ≤ n) :
    natChars n = natChars (n / 10) ++ [digitChar (n % 10)] := by
  show natCharsGo (n + 1) n [] = _
  simp only [natCharsGo, if_neg (by omega : ¬ n < 10)]
  rw [natCharsGo_append n (n / 10) _ (by omega),
    natCharsGo_stable (n / 10) n (n / 10 + 1) (by omega) (by omega)]
  rfl

lemma natChars_all_digits : ∀ n, ∀ c ∈ natChars n, isDigitCh c = true := by
  intro n
  induction n using Nat.strong_induction_on with
  | _ n ih =>
    by_cases h10 : n < 10
    · rw [natChars_eq_of_lt h10]
      intro c hc
      rw [List.mem_singleton.mp hc]
      exact digitChar_isDigit h10
    · rw [natChars_eq_of_ge (by omega)]
      intro c hc
      rcases List.mem_append.mp hc with h | h
      · exact ih (n / 10) (by omega) c h
      · rw [List.mem_singleton.mp h]
        exact digitChar_isDigit (by omega)

lemma natChars_ne_nil (n : Nat) : natChars n ≠ [] := by
  by_cases h10 : n < 10
  · rw [natChars_eq_of_lt h10]; simp
  · rw [natChars_eq_of_ge (by omega)]; simp

lemma digitsToNat_append_one (l : List Char) (c : Char) :
    digitsToNat (l ++ [c]) = 10 * digitsToNat l + digitVal c := by
  unfold digitsToNat
  rw [List.foldl_append]
  rfl

lemma digitsToNat_natChars : ∀ n, digitsToNat (natChars n) = n := by
  intro n
  induction n using Nat.strong_induction_on with
  | _ n ih =>
    by_cases h10 : n < 10
    · rw [natChars_eq_of_lt h10]
      show 10 * 0 + digitVal (digitChar n) = n
      rw [digitVal_digitChar h10]
      omega
    · rw [natChars_eq_of_ge (by omega), digitsToNat_append_one,
        ih (n / 10) (by omega), digitVal_digitChar (by omega : n % 10 < 10)]
      omega

lemma takeWhile_digits_append : ∀ (d : List Char), (∀ c ∈ d, isDigitCh c = true) →
    ∀ (c : Char), isDigitCh c = false → ∀ (r : List Char),
    (d ++ c :: r).takeWhile isDigitCh = d ∧ (d ++ c :: r).dropWhile isDigitCh = c :: r := by
  intro d
  induction d with
  | nil => intro _ c hc r; simp [List.takeWhile_cons, List.dropWhile_cons, hc]
  | cons a t ih =>
    intro hd c hc r
    have ha : isDigitCh a = true := hd a (by simp)
    obtain ⟨h1, h2⟩ := ih (fun x hx => hd x (List.mem_cons_of_mem _ hx)) c hc r
    constructor
    · simp [List.takeWhile_cons, ha, h1]
    · simp [List.dropWhile_cons, ha, h2]

lemma isPrefixOf_append (l1 l2 : List Char) : l1.isPrefixOf (l1 ++ l2) = true :=
  List.isPrefixOf_iff_prefix.mpr (List.prefix_append l1 l2)

/-- `"[这是第 "` as characters. -/
def partMarkerPre1 : List Char := ['[', '这', '是', '第', ' ']

/-- `" 部分，共 "` as characters. -/
def partMarkerPre2 : List Char := [' ', '部', '分', '，', '共', ' ']

/-- `" 部分]\n\n"` as characters. -/
def partMarkerPre3 : List Char := [' ', '部', '分', ']', '\n', '\n']

/-- The v2 position marker `[这是第 ${index + 1} 部分，共 ${total} 部分]\n\n`
(line 493). -/
def contextMarker (oneBased total : Nat) : List Char :=
  partMarkerPre1 ++ natChars oneBased ++ partMarkerPre2 ++ natChars total ++ partMarkerPre3

/-- Deterministic parser for the marker format: the literal frame around the
two decimal numbers. -/
def parsePartMarker (s : List Char) : Option (Nat × Nat) :=
  if partMarkerPre1.isPrefixOf s then
    if ((s.drop partMarkerPre1.length).takeWhile isDigitCh).isEmpty then none
    else if partMarkerPre2.isPrefixOf
        ((s.drop partMarkerPre1.length).dropWhile isDigitCh) then
      if (((((s.drop partMarkerPre1.length).dropWhile isDigitCh).drop
          partMarkerPre2.length)).takeWhile isDigitCh).isEmpty then none
      else if partMarkerPre3.isPrefixOf
          ((((s.drop partMarkerPre1.length).dropWhile isDigitCh).drop
            partMarkerPre2.length).dropWhile isDigitCh) then
        some (digitsToNat ((s.drop partMarkerPre1.length).takeWhile isDigitCh),
          digitsToNat ((((s.drop partMarkerPre1.length).dropWhile isDigitCh).drop
            partMarkerPre2.length).takeWhile isDigitCh))
      else none
    else none
  else none

lemma parse_contextMarker (a b : Nat) (base : List Char) :
    parsePartMarker (contextMarker a b ++ base) = some (a, b) := by
  have hA := natChars_all_digits a
  have hB := natChars_all_digits b
  have hsp : isDigitCh ' ' = false := by decide
  have hshape : contextMarker a b ++ base =
      partMarkerPre1 ++ (natChars a ++ (' ' ::
        (['部', '分', '，', '共', ' '] ++ (natChars b ++ (' ' ::
          (['部', '分', ']', '\n', '\n'] ++ base)))))) := by
    simp [contextMarker, partMarkerPre1, partMarkerPre2, partMarkerPre3, List.append_assoc]
  rw [hshape]
  unfold parsePartMarker
  rw [if_pos (isPrefixOf_append ..), List.drop_left]
  obtain ⟨ht1, hd1⟩ := takeWhile_digits_append (natChars a) hA ' ' hsp
    (['部', '分', '，', '共', ' '] ++ (natChars b ++ (' ' :: (['部', '分', ']', '\n', '\n'] ++ base))))
  rw [ht1, hd1]
  rw [if_neg (by simpa using natChars_ne_nil a)]
  have hr1 : (' ' :: (['部', '分', '，', '共', ' '] ++ (natChars b ++ (' ' ::
      (['部', '分', ']', '\n', '\n'] ++ base))))) =
      partMarkerPre2 ++ (natChars b ++ (' ' :: (['部', '分', ']', '\n', '\n'] ++ base))) := by
    simp [partMarkerPre2]
  rw [hr1, if_pos (isPrefixOf_append ..), List.drop_left]
  obtain ⟨ht2, hd2⟩ := takeWhile_digits_append (natChars b) hB ' ' hsp
    (['部', '分', ']', '\n', '\n'] ++ base)
  rw [ht2, hd2]
  rw [if_neg (by simpa using natChars_ne_nil b)]
  have hr2 : (' ' :: (['部', '分', ']', '\n', '\n'] ++ base)) =
      partMarkerPre3 ++ base := by
    simp [partMarkerPre3]
  rw [hr2, if_pos (isPrefixOf_append ..)]
  rw [digitsToNat_natChars, digitsToNat_natChars]

/-- The marker up to (excluding) its closing `]\n\n`. -/
def markerOpen (a b : Nat) : List Char :=
  partMarkerPre1 ++ natChars a ++ partMarkerPre2 ++ natChars b ++ [' ', '部', '分']

lemma contextMarker_decomp (a b : Nat) (base : List Char) :
    contextMarker a b ++ base = markerOpen a b ++ (']' :: '\n' :: '\n' :: base) := by
  simp [contextMarker, markerOpen, partMarkerPre3, List.append_assoc]

lemma markerOpen_no_rb (a b : Nat) : ']' ∉ markerOpen a b := by
  intro h
  simp only [markerOpen, List.append_assoc, List.mem_append] at h
  rcases h with h | h | h | h | h
  · exact absurd h (by decide)
  · exact absurd (natChars_all_digits a ']' h) (by decide)
  · exact absurd h (by decide)
  · exact absurd (natChars_all_digits b ']' h) (by decide)
  · exact absurd h (by decide)

lemma matchAt_head {s pat : List Char} {j : Nat} {c : Char}
    (hc : pat.head? = some c) (h : matchAt s pat j = true) : s.get? j = some c := by
  unfold matchAt at h
  rw [Bool.and_eq_true] at h
  obtain ⟨hlen, heq⟩ := h
  have heq' : (s.drop j).take pat.length = pat := eq_of_beq heq
  have hpatlen : pat.length ≠ 0 := by
    cases pat with
    | nil => simp at hc
    | cons x t => simp
  have hh : (s.drop j).head? = some c := by
    have hcong := congrArg List.head? heq'
    rw [List.head?_take, if_neg hpatlen] at hcong
    rw [hcong, hc]
  rw [List.get?_eq_getElem?]
  have hdrop := List.getElem?_drop s j 0
  rw [Nat.add_zero] at hdrop
  rw [← hdrop, ← List.head?_eq_getElem?]
  exact hh

lemma firstIndexFrom_eq {s pat : List Char} {f k : Nat}
    (hks : k ≤ s.length) (hmin : min f s.length ≤ k) (hk : matchAt s pat k = true)
    (hnone : ∀ j, j < k → matchAt s pat j = false) :
    firstIndexFrom s pat f = some k := by
  unfold firstIndexFrom
  have hsplit : List.range (s.length + 1) =
      List.range' 0 k ++ List.range' k (s.length + 1 - k) := by
    rw [List.range_eq_range']
    have happ := List.range'_append 0 k (s.length + 1 - k) 1
    simp only [Nat.one_mul, Nat.zero_add] at happ
    have hmk : s.length + 1 = (s.length + 1 - k) + k := by omega
    nth_rewrite 1 [hmk]
    exact happ.symm
  rw [hsplit, List.find?_append]
  have h1 : (List.range' 0 k).find?
      (fun i => decide (min f s.length ≤ i) && matchAt s pat i) = none := by
    rw [List.find?_eq_none]
    intro j hj
    rw [List.mem_range'] at hj
    obtain ⟨i, hi, rfl⟩ := hj
    simp only [Nat.one_mul, Nat.zero_add]
    rw [hnone i hi]
    simp
  rw [h1, Option.none_or]
  have h2 : List.range' k (s.length + 1 - k) = k :: List.range' (k + 1) (s.length - k) := by
    have hsk : s.length + 1 - k = (s.length - k) + 1 := by omega
    rw [hsk, List.range'_succ]
  rw [h2, List.find?_cons_of_pos]
  show (decide (min f s.length ≤ k) && matchAt s pat k) = true
  rw [Bool.and_eq_true]
  exact ⟨decide_eq_true hmin, hk⟩

lemma stripChunkMarker_contextMarker (a b : Nat) (base : List Char) :
    stripChunkMarker (contextMarker a b ++ base) = base := by
  rw [contextMarker_decomp]
  set op := markerOpen a b with hop
  have hoplen : 5 ≤ op.length := by
    simp [hop, markerOpen, partMarkerPre1, List.length_append]
  unfold stripChunkMarker
  have hpre : List.isPrefixOf ['[', '这', '是', '第'] (op ++ (']' :: '\n' :: '\n' :: base))
      = true := by
    apply List.isPrefixOf_iff_prefix.mpr
    refine ⟨' ' :: (natChars a ++ partMarkerPre2 ++ natChars b ++ [' ', '部', '分']
      ++ (']' :: '\n' :: '\n' :: base)), ?_⟩
    simp [hop, markerOpen, partMarkerPre1, List.append_assoc]
  rw [if_pos hpre]
  have hfi : firstIndexFrom (op ++ (']' :: '\n' :: '\n' :: base)) [']', '\n', '\n'] 4
      = some op.length := by
    apply firstIndexFrom_eq
    · simp [List.length_append]
    · have hmin4 : min 4 (op ++ (']' :: '\n' :: '\n' :: base)).length ≤ 4 := min_le_left ..
      omega
    · unfold matchAt
      rw [Bool.and_eq_true]
      constructor
      · apply decide_eq_true
        simp [List.length_append]
      · rw [List.drop_left]
        rfl
    · intro j hj
      by_contra hmt
      have hmt' : matchAt (op ++ (']' :: '\n' :: '\n' :: base)) [']', '\n', '\n'] j = true := by
        cases hx : matchAt (op ++ (']' :: '\n' :: '\n' :: base)) [']', '\n', '\n'] j
        · exact absurd hx hmt
        · rfl
      have hget := matchAt_head
        (show ([']', '\n', '\n'] : List Char).head? = some ']' from rfl) hmt'
      rw [List.get?_append hj] at hget
      exact markerOpen_no_rb a b (List.get?_mem hget)
  rw [hfi]
  show List.drop (op.length + 3) (op ++ (']' :: '\n' :: '\n' :: base)) = base
  have hassoc : op ++ (']' :: '\n' :: '\n' :: base) = (op ++ [']', '\n', '\n']) ++ base := by
    simp
  have hlen3 : op.length + 3 = (op ++ [']', '\n', '\n']).length := by
    simp
  rw [hassoc, hlen3, List.drop_left]

/-- `text.split('\n')` (separator removed, empty pieces kept). -/
def splitOnChar (sep : Char) : List Char → List (List Char)
  | [] => [[]]
  | c :: rest =>
    if c == sep then [] :: splitOnChar sep rest
    else
      match splitOnChar sep rest with
      | [] => [[c]]
      | p :: ps => (c :: p) :: ps

/-- `Array.prototype.join` with a separator. -/
def joinWith (sep : List Char) : List (List Char) → List Char
  | [] => []
  | x :: xs => if xs.isEmpty then x else x ++ sep ++ joinWith sep xs

/-- v2 preprocessing (lines 425-429): delete blank lines, rejoin, trim. -/
def cleanTextV2 (text : List Char) : List Char :=
  jsTrim (joinWith ['\n'] ((splitOnChar '\n' text).filter (fun l => !(jsTrim l).isEmpty)))

/-- `paragraph.split(/(?<=[。！？.!?])/)` (line 439): a zero-width cut after
every terminal punctuation mark that has a successor character. -/
def splitSentencesV2Go : Nat → List Char → List Char → List (List Char)
  | 0, s, acc => [acc.reverse ++ s]
  | _ + 1, [], acc => [acc.reverse]
  | fuel + 1, c :: rest, acc =>
    if isTermPunct c && !rest.isEmpty then
      (c :: acc).reverse :: splitSentencesV2Go fuel rest []
    else splitSentencesV2Go fuel rest (c :: acc)

def splitSentencesV2 (s : List Char) : List (List Char) :=
  splitSentencesV2Go (s.length + 1) s []

/-- v2 character-level split point (lines 448-457): the backward scan bound is
`i >= chunkSize*0.8` (not floored), i.e. `5·i ≥ 4·size`. -/
def findSplitPointV2 (rest : List Char) (size : Nat) : Nat :=
  if size < rest.length then
    match (List.range size).reverse.find? (fun i =>
        decide (4 * size ≤ 5 * i) && ((rest.get? i).elim false (hardPunct.contains ·))) with
    | some i => i + 1
    | none => size
  else size

/-- v2 hard split (lines 444-460): pieces are pushed directly onto `chunks`,
bypassing `currentChunk`. -/
def hardSplitV2Go (maxSize : Nat) : Nat → List Char → List (List Char) → List (List Char)
  | 0, _, chunks => chunks
  | fuel + 1, rest, chunks =>
    if rest.isEmpty then chunks
    else
      hardSplitV2Go maxSize fuel
        (rest.drop (findSplitPointV2 rest (min rest.length maxSize)))
        (chunks ++ [rest.take (findSplitPointV2 rest (min rest.length maxSize))])

/-- v2 sentence loop body (lines 441-469). -/
def processSentenceV2 (m : Nat) (a : SegAcc) (s : List Char) : SegAcc :=
  if m < s.length then ⟨hardSplitV2Go m s.length s a.chunks, a.current⟩
  else if m < a.current.length + s.length ∧ a.current.length ≠ 0 then
    ⟨a.chunks ++ [a.current], s⟩
  else ⟨a.chunks, a.current ++ s⟩

/-- v2 paragraph loop body (lines 433-482). -/
def processParagraphV2 (m : Nat) (a : SegAcc) (p : List Char) : SegAcc :=
  if (jsTrim p).isEmpty then a
  else if m < p.length then (splitSentencesV2 p).foldl (processSentenceV2 m) a
  else if m < a.current.length + p.length + 2 ∧ a.current.length ≠ 0 then
    ⟨a.chunks ++ [a.current], p⟩
  else if a.current.length ≠ 0 then ⟨a.chunks, a.current ++ nl2 ++ p⟩
  else ⟨a.chunks, p⟩

/-- `chunks.map((chunk, index) => contextInfo + chunk)` (lines 490-496),
applied from index `i`. -/
def addMarkersFrom (total : Nat) : Nat → List (List Char) → List (List Char)
  | _, [] => []
  | i, c :: rest => (contextMarker (i + 1) total ++ c) :: addMarkersFrom total (i + 1) rest

/-- The marker-attaching snapshot's `splitTextIntoChunks`
(`translationService.ts` lines 414-497): a text within `maxChunkSize` is
returned whole and unmarked; otherwise the cleaned text is segmented and,
when more than one chunk results, each chunk is prefixed with the
`[这是第 i 部分，共 n 部分]\n\n` marker. -/
def splitTextIntoChunksV2 (text : List Char) (m : Nat) : List (List Char) :=
  if text.length ≤ m then [text]
  else
    let paras := splitOnChar '\n' (cleanTextV2 text)
    let a := paras.foldl (processParagraphV2 m) (⟨[], []⟩ : SegAcc)
    let base := if a.current.length ≠ 0 then a.chunks ++ [a.current] else a.chunks
    if 1 < base.length then addMarkersFrom base.length 0 base else base

lemma addMarkersFrom_length (total : Nat) :
    ∀ (l : List (List Char)) (i : Nat), (addMarkersFrom total i l).length = l.length := by
  intro l
  induction l with
  | nil => intro i; rfl
  | cons c rest ih => intro i; simp [addMarkersFrom, ih]

lemma addMarkersFrom_get? (total : Nat) :
    ∀ (l : List (List Char)) (i j : Nat),
      (addMarkersFrom total i l).get? j =
        (l.get? j).map (fun c => contextMarker (i + j + 1) total ++ c) := by
  intro l
  induction l with
  | nil => intro i j; simp [addMarkersFrom]
  | cons c rest ih =>
    intro i j
    cases j with
    | zero => simp [addMarkersFrom]
    | succ j' =>
      simp only [addMarkersFrom, List.get?_cons_succ]
      rw [ih (i + 1) j']
      have harith : i + 1 + j' + 1 = i + (j' + 1) + 1 := by omega
      rw [harith]

/-- C6: whenever the marker-attaching snapshot's `splitTextIntoChunks` returns
more than one segment, every returned segment decomposes as the deterministic
position marker `[这是第 i 部分，共 n 部分]\n\n` — encoding the segment's
1-based index `i` and the total count `n` — followed by the segment body; the
marker is parseable back to `(i, n)` by a fixed parser, and the single fixed
pattern `^\[这是第[\s\S]*?\]\n\n` strips it, recovering exactly the body. -/
theorem splitTextIntoChunksV2_markers (text : List Char) (m : Nat) (j : Nat) (seg : List Char)
    (h1 : 1 < (splitTextIntoChunksV2 text m).length)
    (h2 : (splitTextIntoChunksV2 text m).get? j = some seg) :
    ∃ base, seg = contextMarker (j + 1) (splitTextIntoChunksV2 text m).length ++ base ∧
      stripChunkMarker seg = base ∧
      parsePartMarker seg = some (j + 1, (splitTextIntoChunksV2 text m).length) := by
  simp only [splitTextIntoChunksV2] at h1 h2 ⊢
  by_cases hle : text.length ≤ m
  · rw [if_pos hle] at h1
    simp at h1
  · rw [if_neg hle] at h1 h2 ⊢
    set a := (splitOnChar '\n' (cleanTextV2 text)).foldl (processParagraphV2 m)
      (⟨[], []⟩ : SegAcc) with ha
    set base := if a.current.length ≠ 0 then a.chunks ++ [a.current] else a.chunks with hbase
    by_cases hb : 1 < base.length
    · rw [if_pos hb] at h1 h2 ⊢
      have hlen : (addMarkersFrom base.length 0 base).length = base.length :=
        addMarkersFrom_length base.length base 0
      rw [addMarkersFrom_get?] at h2
      cases hbj : base.get? j with
      | none => rw [hbj] at h2; simp at h2
      | some bj =>
        rw [hbj] at h2
        simp only [Option.map_some'] at h2
        have hseg : seg = contextMarker (0 + j + 1) base.length ++ bj :=
          (Option.some_inj.mp h2).symm
        have hzero : 0 + j + 1 = j + 1 := by omega
        rw [hzero] at hseg
        refine ⟨bj, ?_, ?_, ?_⟩
        · rw [hseg, hlen]
        · rw [hseg]
          exact stripChunkMarker_contextMarker (j + 1) base.length bj
        · rw [hseg, hlen]
          exact parse_contextMarker (j + 1) base.length bj
    · rw [if_neg hb] at h1
      omega

/-- Witness for C6 at a concrete input: `splitTextIntoChunksV2 "abcde" 3`
yields two marked segments; its first segment is the marker for (1, 2)
followed by `"abc"`. -/
theorem splitTextIntoChunksV2_markers_witness :
    ∃ base, (contextMarker 1 2 ++ ['a', 'b', 'c'] : List Char) =
        contextMarker (0 + 1) (splitTextIntoChunksV2 "abcde".toList 3).length ++ base ∧
      stripChunkMarker (contextMarker 1 2 ++ ['a', 'b', 'c']) = base ∧
      parsePartMarker (contextMarker 1 2 ++ ['a', 'b', 'c']) =
        some (0 + 1, (splitTextIntoChunksV2 "abcde".toList 3).length) :=
  splitTextIntoChunksV2_markers "abcde".toList 3 0 (contextMarker 1 2 ++ ['a', 'b', 'c'])
    (by decide) (by decide)
